import Mathlib

/-!
Verification of the character-level text preprocessing pipeline from the
lets-build-gpt notebook: vocabulary construction, the text/id codec, the
train/validation split, and context-target window generation.

Text is modelled as `List Char` (one `Char` per Unicode code point), encoded
corpora as `List Nat`.
-/

namespace GPT

/-- The vocabulary derived from a corpus: the distinct characters of the text,
sorted by code point. Embeds the notebook line
`chars = sorted(list(set(content)))`: `dedup` plays the role of `set` and
`insertionSort` of `sorted`, using the code-point order on `Char`. -/
def chars (content : List Char) : List Char :=
  (content.dedup).insertionSort (· ≤ ·)

/-- Embeds `vocab_size = len(chars)`. -/
def vocab_size (content : List Char) : Nat :=
  (chars content).length

/-- Embeds the dictionary `char_to_idx` built by enumerating `chars`: a
character is mapped to its index in the list, `none` when absent (a Python
`KeyError` on lookup). -/
def char_to_idx : List Char → Char → Option Nat
  | [], _ => none
  | x :: xs, c => if x = c then some 0 else (char_to_idx xs c).map (· + 1)

/-- Embeds the dictionary `idx_to_char`: index `i` is mapped to the
character at position `i` of `chars`, `none` when out of range (a Python
`KeyError` on lookup). -/
def idx_to_char (v : List Char) (i : Nat) : Option Char :=
  v[i]?

/-- The codec's error taxonomy from the spec. The notebook's encoder and
decoder halt with a `KeyError` at the offending dictionary lookup; the error
value here additionally records the position at which the traversal halted,
which is the spec's `UnknownSymbolError(symbol, position)` payload. -/
inductive CodecError where
  | UnknownSymbolError (symbol : Char) (position : Nat)
  | InvalidIdError (id : Nat)
  deriving DecidableEq, Repr

/-- Helper for `encode`, threading the current position: the list
comprehension `[char_to_idx[c] for c in s]` evaluated left to right, halting
at the first character absent from the vocabulary. -/
def encodeFrom (v : List Char) : List Char → Nat → Except CodecError (List Nat)
  | [], _ => .ok []
  | c :: rest, pos =>
    match char_to_idx v c with
    | some i => (encodeFrom v rest (pos + 1)).map (fun ids => i :: ids)
    | none => .error (.UnknownSymbolError c pos)

/-- Embeds `encode = lambda s: [char_to_idx[c] for c in s]`. -/
def encode (v : List Char) (s : List Char) : Except CodecError (List Nat) :=
  encodeFrom v s 0

/-- Embeds `decode = lambda l: ''.join([idx_to_char[i] for i in l])`, halting
at the first id outside the vocabulary range. -/
def decode (v : List Char) : List Nat → Except CodecError (List Char)
  | [] => .ok []
  | i :: rest =>
    match idx_to_char v i with
    | some c => (decode v rest).map (fun cs => c :: cs)
    | none => .error (.InvalidIdError i)

/-! ### Dictionary lemmas -/

theorem char_to_idx_isSome_of_mem {v : List Char} {c : Char} (h : c ∈ v) :
    ∃ i, char_to_idx v c = some i := by
  induction v with
  | nil => cases h
  | cons x xs ih =>
    by_cases hx : x = c
    · exact ⟨0, by simp [char_to_idx, hx]⟩
    · have hc : c ∈ xs := by
        rcases List.mem_cons.mp h with h | h
        · exact absurd h.symm hx
        · exact h
      rcases ih hc with ⟨i, hi⟩
      exact ⟨i + 1, by simp [char_to_idx, hx, hi]⟩

theorem get_of_char_to_idx {v : List Char} {c : Char} {i : Nat}
    (h : char_to_idx v c = some i) : v[i]? = some c := by
  induction v generalizing i with
  | nil => simp [char_to_idx] at h
  | cons x xs ih =>
    by_cases hx : x = c
    · simp only [char_to_idx, if_pos hx] at h
      cases h
      simpa using hx
    · simp only [char_to_idx, if_neg hx, Option.map_eq_some'] at h
      rcases h with ⟨j, hj, rfl⟩
      simpa using ih hj

theorem char_to_idx_lt_length {v : List Char} {c : Char} {i : Nat}
    (h : char_to_idx v c = some i) : i < v.length := by
  have := get_of_char_to_idx h
  exact (List.getElem?_eq_some.mp this).1

theorem char_to_idx_of_get {v : List Char} (hv : v.Nodup) {c : Char} {i : Nat}
    (h : v[i]? = some c) : char_to_idx v c = some i := by
  induction v generalizing i with
  | nil => simp at h
  | cons x xs ih =>
    cases i with
    | zero =>
      simp only [List.getElem?_cons_zero, Option.some_inj] at h
      simp [char_to_idx, h]
    | succ j =>
      simp only [List.getElem?_cons_succ] at h
      have hc : c ∈ xs := List.getElem?_mem h
      have hx : x ≠ c := fun hxc => (List.nodup_cons.mp hv).1 (hxc ▸ hc)
      simp [char_to_idx, hx, ih (List.nodup_cons.mp hv).2 h]

/-! ### Round trip, text to ids to text -/

theorem encodeFrom_decode_roundtrip (v : List Char) :
    ∀ (t : List Char) (pos : Nat), (∀ c ∈ t, c ∈ v) →
      ∃ ids, encodeFrom v t pos = .ok ids ∧ decode v ids = .ok t := by
  intro t
  induction t with
  | nil => exact fun _ _ => ⟨[], rfl, rfl⟩
  | cons c rest ih =>
    intro pos h
    rcases char_to_idx_isSome_of_mem (h c (List.mem_cons_self c rest)) with ⟨i, hi⟩
    rcases ih (pos + 1) (fun d hd => h d (List.mem_cons_of_mem c hd)) with
      ⟨ids, hids, hdec⟩
    refine ⟨i :: ids, ?_, ?_⟩
    · simp [encodeFrom, hi, hids, Except.map]
    · simp [decode, idx_to_char, get_of_char_to_idx hi, hdec, Except.map]

/-- C1. For every vocabulary built from a corpus and every text all of whose
symbols belong to that vocabulary, decoding the encoding of the text returns
the text exactly, whitespace and punctuation included. -/
theorem decode_encode_eq_of_mem (content t : List Char)
    (h : ∀ c ∈ t, c ∈ chars content) :
    (encode (chars content) t).bind (decode (chars content)) = Except.ok t := by
  rcases encodeFrom_decode_roundtrip (chars content) t 0 h with ⟨ids, hids, hdec⟩
  simp [encode, hids, hdec, Except.bind]

/-- Witness for C1 at the corpus "hello, world" and the text "low wold,". -/
theorem decode_encode_eq_of_mem_witness :
    (encode (chars ("hello, world".toList)) ("low wold,".toList)).bind
        (decode (chars ("hello, world".toList)))
      = Except.ok ("low wold,".toList) :=
  decode_encode_eq_of_mem ("hello, world".toList) ("low wold,".toList)
    (by decide)

/-! ### Structure of the vocabulary list -/

theorem chars_perm_dedup (content : List Char) :
    List.Perm (chars content) content.dedup :=
  List.perm_insertionSort (· ≤ ·) content.dedup

theorem chars_nodup (content : List Char) : (chars content).Nodup :=
  (chars_perm_dedup content).nodup_iff.mpr (List.nodup_dedup content)

theorem chars_sorted_le (content : List Char) :
    List.Sorted (· ≤ ·) (chars content) :=
  List.sorted_insertionSort (· ≤ ·) content.dedup

theorem chars_sorted_lt (content : List Char) :
    List.Sorted (· < ·) (chars content) :=
  (chars_sorted_le content).lt_of_le (chars_nodup content)

theorem mem_chars {content : List Char} {c : Char} :
    c ∈ chars content ↔ c ∈ content := by
  rw [(chars_perm_dedup content).mem_iff, List.mem_dedup]

/-! ### Round trip, ids to text to ids -/

theorem decode_encodeFrom_roundtrip (v : List Char) (hv : v.Nodup) :
    ∀ (ids : List Nat) (pos : Nat), (∀ i ∈ ids, i < v.length) →
      ∃ t, decode v ids = .ok t ∧ encodeFrom v t pos = .ok ids := by
  intro ids
  induction ids with
  | nil => exact fun _ _ => ⟨[], rfl, rfl⟩
  | cons i rest ih =>
    intro pos h
    have hi : i < v.length := h i (List.mem_cons_self i rest)
    have hget : v[i]? = some v[i] := List.getElem?_eq_getElem hi
    rcases ih (pos + 1) (fun j hj => h j (List.mem_cons_of_mem i hj)) with
      ⟨t, hdec, henc⟩
    refine ⟨v[i] :: t, ?_, ?_⟩
    · simp [decode, idx_to_char, hget, hdec, Except.map]
    · simp [encodeFrom, char_to_idx_of_get hv hget, henc, Except.map]

/-- C10. For every vocabulary built from a corpus and every id sequence whose
entries all lie below the vocabulary size, encoding the decoded text returns
the original id sequence: the id-to-symbol mapping is injective, so the
round trip also holds in the ids-to-text-to-ids direction. -/
theorem encode_decode_eq_of_lt (content : List Char) (ids : List Nat)
    (h : ∀ i ∈ ids, i < vocab_size content) :
    (decode (chars content) ids).bind (encode (chars content)) =
      Except.ok ids := by
  rcases decode_encodeFrom_roundtrip (chars content) (chars_nodup content)
      ids 0 h with ⟨t, hdec, henc⟩
  simp [hdec, encode, henc, Except.bind]

/-! ### Vocabulary construction -/

theorem char_to_idx_eq_rank {v : List Char} (hv : List.Sorted (· < ·) v) :
    ∀ {c : Char} {i : Nat}, char_to_idx v c = some i →
      i = (v.filter (fun d => decide (d < c))).length := by
  induction v with
  | nil => intro c i h; simp [char_to_idx] at h
  | cons x xs ih =>
    intro c i h
    have hx_lt : ∀ b ∈ xs, x < b := (List.sorted_cons.mp hv).1
    have hxs : List.Sorted (· < ·) xs := (List.sorted_cons.mp hv).2
    by_cases hx : x = c
    · simp only [char_to_idx, if_pos hx] at h
      cases h
      have hnone : xs.filter (fun d => decide (d < c)) = [] := by
        rw [List.filter_eq_nil_iff]
        intro d hd
        have : c < d := hx ▸ hx_lt d hd
        simp [not_lt_of_gt this]
      subst hx
      simp [List.filter_cons, hnone]
    · simp only [char_to_idx, if_neg hx, Option.map_eq_some'] at h
      rcases h with ⟨j, hj, rfl⟩
      have hc : c ∈ xs := List.getElem?_mem (get_of_char_to_idx hj)
      have hlt : x < c := hx_lt c hc
      simp [List.filter_cons, hlt, ih hxs hj]

/-- C4. The vocabulary built from a non-empty text has one id per distinct
symbol: its size is the number of distinct symbols, each symbol of the text
gets the id equal to its rank in the code-point-sorted order of the distinct
symbols, the symbol-to-id mapping is injective and onto the ids below the
size, and two corpora with the same symbols yield the same vocabulary,
independent of first-occurrence order. -/
theorem build_vocab_spec (content : List Char) (_hne : content ≠ []) :
    vocab_size content = content.toFinset.card
    ∧ (∀ c ∈ content, ∃ i, char_to_idx (chars content) c = some i
        ∧ i < vocab_size content
        ∧ i = ((chars content).filter (fun d => decide (d < c))).length)
    ∧ (∀ c c' : Char, ∀ i : Nat, char_to_idx (chars content) c = some i →
        char_to_idx (chars content) c' = some i → c = c')
    ∧ (∀ i < vocab_size content, ∃ c ∈ content,
        char_to_idx (chars content) c = some i)
    ∧ (∀ content' : List Char, (∀ c, c ∈ content ↔ c ∈ content') →
        chars content = chars content') := by
  refine ⟨?_, ?_, ?_, ?_, ?_⟩
  · rw [vocab_size, (chars_perm_dedup content).length_eq,
      List.card_toFinset]
  · intro c hc
    rcases char_to_idx_isSome_of_mem (mem_chars.mpr hc) with ⟨i, hi⟩
    exact ⟨i, hi, char_to_idx_lt_length hi,
      char_to_idx_eq_rank (chars_sorted_lt content) hi⟩
  · intro c c' i h h'
    have := (get_of_char_to_idx h).symm.trans (get_of_char_to_idx h')
    exact Option.some_injective _ this
  · intro i hi
    have hget : (chars content)[i]? = some ((chars content)[i]) :=
      List.getElem?_eq_getElem hi
    exact ⟨(chars content)[i],
      mem_chars.mp (List.getElem_mem hi),
      char_to_idx_of_get (chars_nodup content) hget⟩
  · intro content' hmem
    refine List.eq_of_perm_of_sorted ?_ (chars_sorted_le content)
      (chars_sorted_le content')
    refine (List.perm_ext_iff_of_nodup (chars_nodup content)
      (chars_nodup content')).mpr ?_
    intro a
    rw [mem_chars, mem_chars]
    exact hmem a

/-- Witness for C4 at the corpus "hello, world". -/
theorem build_vocab_spec_witness :
    vocab_size ("hello, world".toList)
      = ("hello, world".toList).toFinset.card :=
  (build_vocab_spec ("hello, world".toList) (by decide)).1

/-- Witness for C10 at the corpus "hello, world" and ids [8, 6, 5, 2]. -/
theorem encode_decode_eq_of_lt_witness :
    (decode (chars ("hello, world".toList)) [8, 6, 5, 2]).bind
        (encode (chars ("hello, world".toList)))
      = Except.ok [8, 6, 5, 2] :=
  encode_decode_eq_of_lt ("hello, world".toList) [8, 6, 5, 2] (by decide)

/-! ### Concrete codec scenario -/

/-- C6. For the corpus "hello, world", the vocabulary is the nine distinct
symbols in code-point order with ids space 0, comma 1, d 2, e 3, h 4, l 5,
o 6, r 7, w 8; encoding "hello, world" yields [4,3,5,5,6,1,0,8,6,7,5,2] and
decoding that sequence reproduces "hello, world" exactly. -/
theorem hello_world_scenario :
    chars ("hello, world".toList) = [' ', ',', 'd', 'e', 'h', 'l', 'o', 'r', 'w']
    ∧ char_to_idx (chars ("hello, world".toList)) ' ' = some 0
    ∧ char_to_idx (chars ("hello, world".toList)) ',' = some 1
    ∧ char_to_idx (chars ("hello, world".toList)) 'd' = some 2
    ∧ char_to_idx (chars ("hello, world".toList)) 'e' = some 3
    ∧ char_to_idx (chars ("hello, world".toList)) 'h' = some 4
    ∧ char_to_idx (chars ("hello, world".toList)) 'l' = some 5
    ∧ char_to_idx (chars ("hello, world".toList)) 'o' = some 6
    ∧ char_to_idx (chars ("hello, world".toList)) 'r' = some 7
    ∧ char_to_idx (chars ("hello, world".toList)) 'w' = some 8
    ∧ encode (chars ("hello, world".toList)) ("hello, world".toList)
        = Except.ok [4, 3, 5, 5, 6, 1, 0, 8, 6, 7, 5, 2]
    ∧ decode (chars ("hello, world".toList)) [4, 3, 5, 5, 6, 1, 0, 8, 6, 7, 5, 2]
        = Except.ok ("hello, world".toList) :=
  ⟨rfl, rfl, rfl, rfl, rfl, rfl, rfl, rfl, rfl, rfl, rfl, rfl⟩

/-! ### Encoding failure on unknown symbols -/

theorem char_to_idx_eq_none_iff {v : List Char} {c : Char} :
    char_to_idx v c = none ↔ c ∉ v := by
  constructor
  · intro h hc
    rcases char_to_idx_isSome_of_mem hc with ⟨i, hi⟩
    rw [h] at hi
    cases hi
  · intro hc
    cases h : char_to_idx v c with
    | none => rfl
    | some i =>
      exact absurd (List.getElem?_mem (get_of_char_to_idx h)) hc

theorem encodeFrom_unknown (v : List Char) :
    ∀ (t : List Char) (pos : Nat), (∃ c ∈ t, c ∉ v) →
      ∃ c k, encodeFrom v t pos = .error (.UnknownSymbolError c (pos + k))
        ∧ k < t.length ∧ t[k]? = some c ∧ c ∉ v
        ∧ ∀ j < k, ∀ d : Char, t[j]? = some d → d ∈ v := by
  intro t
  induction t with
  | nil => rintro pos ⟨c, hc, -⟩; cases hc
  | cons c0 rest ih =>
    intro pos hex
    cases h0 : char_to_idx v c0 with
    | none =>
      refine ⟨c0, 0, ?_, by simp, by simp, char_to_idx_eq_none_iff.mp h0, ?_⟩
      · simp [encodeFrom, h0]
      · intro j hj; omega
    | some i =>
      have hc0 : c0 ∈ v := List.getElem?_mem (get_of_char_to_idx h0)
      have hex' : ∃ c ∈ rest, c ∉ v := by
        rcases hex with ⟨c, hc, hcv⟩
        rcases List.mem_cons.mp hc with rfl | hc
        · exact absurd hc0 hcv
        · exact ⟨c, hc, hcv⟩
      rcases ih (pos + 1) hex' with ⟨c, k, herr, hk, hget, hcv, hfirst⟩
      refine ⟨c, k + 1, ?_, by simpa using hk, by simpa using hget, hcv, ?_⟩
      · have : pos + 1 + k = pos + (k + 1) := by omega
        rw [this] at herr
        simp [encodeFrom, h0, herr, Except.map]
      · intro j hj d hd
        cases j with
        | zero =>
          simp only [List.getElem?_cons_zero, Option.some_inj] at hd
          exact hd ▸ hc0
        | succ j' =>
          simp only [List.getElem?_cons_succ] at hd
          exact hfirst j' (by omega) d hd

/-- C8. Encoding a text containing a symbol absent from the vocabulary fails
with UnknownSymbolError carrying the first such symbol and its position,
without skipping or dropping it; encoding succeeds for every text whose
symbols all belong to the vocabulary. -/
theorem encode_unknown_symbol (v : List Char) (t : List Char) :
    ((∃ c ∈ t, c ∉ v) →
      ∃ c pos, encode v t = .error (.UnknownSymbolError c pos)
        ∧ pos < t.length ∧ t[pos]? = some c ∧ c ∉ v
        ∧ ∀ j < pos, ∀ d : Char, t[j]? = some d → d ∈ v)
    ∧ ((∀ c ∈ t, c ∈ v) → ∃ ids, encode v t = .ok ids) := by
  constructor
  · intro hex
    rcases encodeFrom_unknown v t 0 hex with ⟨c, k, herr, hk, hget, hcv, hfirst⟩
    exact ⟨c, k, by simpa using herr, hk, hget, hcv, hfirst⟩
  · intro hall
    rcases encodeFrom_decode_roundtrip v t 0 hall with ⟨ids, hids, -⟩
    exact ⟨ids, hids⟩

/-- Witness for C8: encoding "hi!" against the vocabulary of "hello, world"
fails at the symbol i in position 1. -/
theorem encode_unknown_symbol_witness :
    ∃ c pos, encode (chars ("hello, world".toList)) ("hi!".toList)
        = .error (.UnknownSymbolError c pos)
      ∧ pos < ("hi!".toList).length ∧ ("hi!".toList)[pos]? = some c
      ∧ c ∉ chars ("hello, world".toList)
      ∧ ∀ j < pos, ∀ d : Char, ("hi!".toList)[j]? = some d →
          d ∈ chars ("hello, world".toList) :=
  (encode_unknown_symbol (chars ("hello, world".toList)) ("hi!".toList)).1
    (by decide)

/-! ### Vocabulary builder entry point -/

/-- Error raised by the vocabulary builder on an empty corpus. -/
inductive BuildError where
  | EmptyCorpusError
  deriving DecidableEq

/-- Modelled from the spec: the notebook builds the vocabulary inline on a
fixed non-empty corpus and has no reusable entry point with an emptiness
check; the spec's VocabularyBuilder.build must fail with EmptyCorpusError on
empty input and otherwise return the sorted-distinct-symbol vocabulary. -/
def build (text : List Char) : Except BuildError (List Char) :=
  if text.isEmpty then .error .EmptyCorpusError else .ok (chars text)

/-- C7. The vocabulary builder fails with EmptyCorpusError exactly on the
empty text, and succeeds on every non-empty text. -/
theorem build_empty_corpus (text : List Char) :
    (build text = .error .EmptyCorpusError ↔ text = [])
    ∧ (text ≠ [] → build text = .ok (chars text)) := by
  constructor
  · constructor
    · intro h
      by_contra hne
      simp [build, List.isEmpty_iff, hne] at h
    · intro h
      subst h
      rfl
  · intro hne
    simp [build, List.isEmpty_iff, hne]

/-- Witness for C7: building from the one-letter text "a" succeeds. -/
theorem build_empty_corpus_witness :
    build ("a".toList) = .ok (chars ("a".toList)) :=
  (build_empty_corpus ("a".toList)).2 (by decide)

/-! ### Context-target window -/

/-- Error raised when a requested window does not fit inside the region. -/
inductive WindowError where
  | RangeError
  deriving DecidableEq

/-- Modelled from the spec: the notebook demonstrates the window only at
start 0, via `x = train_data[:block_size]` and
`y = train_data[1:block_size+1]`, with no bounds check; the spec's
`window(region, start, length)` generalizes to an arbitrary start and fails
with RangeError when `start + length + 1 > length(region)`. A Python slice
`region[a : b]` is embedded as `(region.drop a).take (b - a)`. -/
def window (region : List Nat) (start len : Nat) :
    Except WindowError (List Nat × List Nat) :=
  if start + len + 1 > region.length then .error .RangeError
  else .ok ((region.drop start).take len, (region.drop (start + 1)).take len)

/-- C2. For an in-range window, the context is `region[start : start+len]`,
the target is `region[start+1 : start+len+1]`, both have length `len`, and at
every position `k` below `len` the target holds the region symbol one past
the context symbol: the target is the context window shifted by one. -/
theorem window_shift (region : List Nat) (start len : Nat)
    (h : start + len + 1 ≤ region.length) :
    window region start len
        = .ok ((region.drop start).take len, (region.drop (start + 1)).take len)
    ∧ ∀ ctx tgt, window region start len = .ok (ctx, tgt) →
        ctx.length = len ∧ tgt.length = len
        ∧ (∀ k < len, ctx[k]? = region[start + k]?)
        ∧ (∀ k < len, tgt[k]? = region[start + k + 1]?) := by
  have hok : window region start len
      = .ok ((region.drop start).take len, (region.drop (start + 1)).take len) := by
    simp only [window, if_neg (by omega : ¬ start + len + 1 > region.length)]
  refine ⟨hok, ?_⟩
  intro ctx tgt hw
  rw [hok] at hw
  obtain ⟨rfl, rfl⟩ : ctx = (region.drop start).take len
      ∧ tgt = (region.drop (start + 1)).take len := by
    cases hw; exact ⟨rfl, rfl⟩
  refine ⟨?_, ?_, ?_, ?_⟩
  · rw [List.length_take, List.length_drop]; omega
  · rw [List.length_take, List.length_drop]; omega
  · intro k hk
    rw [List.getElem?_take_of_lt hk, List.getElem?_drop]
  · intro k hk
    rw [List.getElem?_take_of_lt hk, List.getElem?_drop]
    congr 1
    omega

/-- Witness for C2 at region [18,47,56,57,58,1,15,47,58], start 2, len 3. -/
theorem window_shift_witness :
    window [18, 47, 56, 57, 58, 1, 15, 47, 58] 2 3
      = .ok (([18, 47, 56, 57, 58, 1, 15, 47, 58].drop 2).take 3,
        ([18, 47, 56, 57, 58, 1, 15, 47, 58].drop 3).take 3) :=
  (window_shift [18, 47, 56, 57, 58, 1, 15, 47, 58] 2 3 (by decide)).1

/-- C9. A window that does not fit, that is `start + len + 1 >
length(region)`, fails with RangeError and yields no context-target pair,
rather than silently returning a truncated window. -/
theorem window_range_error (region : List Nat) (start len : Nat)
    (h : start + len + 1 > region.length) :
    window region start len = .error .RangeError
    ∧ ∀ p : List Nat × List Nat, window region start len ≠ .ok p := by
  have herr : window region start len = .error .RangeError := by
    simp only [window, if_pos h]
  exact ⟨herr, fun p hp => by rw [herr] at hp; cases hp⟩

/-- Witness for C9: a window of length 3 starting at 1 in a region of
length 3 is rejected. -/
theorem window_range_error_witness :
    window [5, 6, 7] 1 3 = .error .RangeError :=
  (window_range_error [5, 6, 7] 1 3 (by decide)).1

/-! ### Growing-context example generation -/

/-- Modelled from the spec: the notebook demonstrates example generation only
at start 0, via `for i in range(block_size): context = x[:i+1]; target =
y[i]`; the spec's `generate_at(region, start, max_context)` generalizes to an
arbitrary start and stops early, without error, as soon as `start +
context_len` reaches the end of the region. `generate_go` counts the
remaining iterations and carries the current context length. -/
def generate_go (region : List Nat) (start : Nat) :
    Nat → Nat → List (List Nat × Nat)
  | 0, _ => []
  | k + 1, clen =>
    match region[start + clen]? with
    | some t =>
      ((region.drop start).take clen, t) :: generate_go region start k (clen + 1)
    | none => []

/-- One example per context length 1 up to `max_context`, stopping early at
the end of the region. -/
def generate_at (region : List Nat) (start max_context : Nat) :
    List (List Nat × Nat) :=
  generate_go region start max_context 1

theorem generate_go_eq (region : List Nat) (start : Nat) :
    ∀ (k clen : Nat), generate_go region start k clen =
      (List.range (min k (region.length - (start + clen)))).map
        (fun i => ((region.drop start).take (clen + i),
          region.getD (start + clen + i) 0)) := by
  intro k
  induction k with
  | zero => intro clen; simp [generate_go]
  | succ k ih =>
    intro clen
    cases hget : region[start + clen]? with
    | none =>
      have hle : region.length ≤ start + clen := by
        simpa using List.getElem?_eq_none_iff.mp hget
      have h0 : min (k + 1) (region.length - (start + clen)) = 0 := by omega
      rw [h0]
      simp [generate_go, hget]
    | some t =>
      have hlt : start + clen < region.length := (List.getElem?_eq_some.mp hget).1
      have hmin : min (k + 1) (region.length - (start + clen))
          = min k (region.length - (start + (clen + 1))) + 1 := by omega
      rw [hmin, List.range_succ_eq_map]
      simp only [generate_go, hget, List.map_cons, List.map_map]
      refine congrArg₂ _ ?_ ?_
      · simp [List.getD_eq_getElem?_getD, hget]
      · rw [ih (clen + 1)]
        refine List.map_congr_left ?_
        intro i _
        have h1 : clen + Nat.succ i = clen + 1 + i := by omega
        have h2 : start + clen + Nat.succ i = start + (clen + 1) + i := by omega
        simp only [Function.comp_apply, h1, h2]

/-- C3. For every region, start, and maximum context, the generator yields
one example per context length from 1 up to the maximum while the target
index stays inside the region, each with context `region[start :
start+context_len]` and target `region[start+context_len]`, and stops early
without error at the end of the region; on the region
[18,47,56,57,58,1,15,47,58] with start 0 and maximum context 8 it yields 8
examples whose 5th is context [18,47,56,57,58] with target 1. -/
theorem generate_at_spec :
    (∀ region start max_context, generate_at region start max_context =
      (List.range (min max_context (region.length - (start + 1)))).map
        (fun i => ((region.drop start).take (i + 1),
          region.getD (start + 1 + i) 0)))
    ∧ generate_at [18, 47, 56, 57, 58, 1, 15, 47, 58] 0 8 =
      [([18], 47), ([18, 47], 56), ([18, 47, 56], 57), ([18, 47, 56, 57], 58),
        ([18, 47, 56, 57, 58], 1), ([18, 47, 56, 57, 58, 1], 15),
        ([18, 47, 56, 57, 58, 1, 15], 47), ([18, 47, 56, 57, 58, 1, 15, 47], 58)]
    ∧ (generate_at [18, 47, 56, 57, 58, 1, 15, 47, 58] 0 8)[4]? =
      some ([18, 47, 56, 57, 58], 1) := by
  refine ⟨?_, rfl, rfl⟩
  intro region start max_context
  rw [generate_at, generate_go_eq region start max_context 1]
  refine List.map_congr_left ?_
  intro i _
  have h1 : 1 + i = i + 1 := by omega
  simp only [h1]

/-! ### Train/validation split -/

/-- Error raised when the split ratio is outside the open unit interval. -/
inductive SplitError where
  | InvalidSplitRatioError
  deriving DecidableEq

/-- Modelled from the spec: the notebook splits with the fixed fraction 0.9,
`n = int(0.9 * len(data))`, `train_data = data[:n]`, `val_data = data[n:]`,
with no ratio validation; the spec's `split(corpus, train_fraction)`
generalizes the fraction (modelled as a rational number) and fails with
InvalidSplitRatioError unless `0 < train_fraction < 1`. -/
def split (corpus : List Nat) (train_fraction : ℚ) :
    Except SplitError (List Nat × List Nat) :=
  if 0 < train_fraction ∧ train_fraction < 1 then
    .ok (corpus.take ((⌊train_fraction * (corpus.length : ℚ)⌋).toNat),
      corpus.drop ((⌊train_fraction * (corpus.length : ℚ)⌋).toNat))
  else .error .InvalidSplitRatioError

/-- C5. For a ratio strictly between 0 and 1, the split returns the prefix of
length `n = floor(train_fraction * length(corpus))` and the remaining suffix;
the two lengths sum to the corpus length and their concatenation is the
corpus. -/
theorem split_spec (corpus : List Nat) (train_fraction : ℚ)
    (h0 : 0 < train_fraction) (h1 : train_fraction < 1) :
    split corpus train_fraction
        = .ok (corpus.take ((⌊train_fraction * (corpus.length : ℚ)⌋).toNat),
          corpus.drop ((⌊train_fraction * (corpus.length : ℚ)⌋).toNat))
    ∧ ∀ tr va, split corpus train_fraction = .ok (tr, va) →
        tr.length + va.length = corpus.length ∧ tr ++ va = corpus := by
  have hok : split corpus train_fraction
      = .ok (corpus.take ((⌊train_fraction * (corpus.length : ℚ)⌋).toNat),
        corpus.drop ((⌊train_fraction * (corpus.length : ℚ)⌋).toNat)) := by
    simp only [split, if_pos (And.intro h0 h1)]
  refine ⟨hok, ?_⟩
  intro tr va hw
  rw [hok] at hw
  obtain ⟨rfl, rfl⟩ : tr = corpus.take ((⌊train_fraction * (corpus.length : ℚ)⌋).toNat)
      ∧ va = corpus.drop ((⌊train_fraction * (corpus.length : ℚ)⌋).toNat) := by
    cases hw; exact ⟨rfl, rfl⟩
  constructor
  · rw [List.length_take, List.length_drop]; omega
  · exact List.take_append_drop _ corpus

/-- Witness for C5: splitting a ten-element corpus at the ratio 9/10 keeps
the first nine elements for training. -/
theorem split_spec_witness :
    split [0, 1, 2, 3, 4, 5, 6, 7, 8, 9] ((9 : ℚ)/10)
      = .ok ([0, 1, 2, 3, 4, 5, 6, 7, 8, 9].take
          ((⌊((9 : ℚ)/10) * (([0, 1, 2, 3, 4, 5, 6, 7, 8, 9] : List Nat).length : ℚ)⌋).toNat),
        [0, 1, 2, 3, 4, 5, 6, 7, 8, 9].drop
          ((⌊((9 : ℚ)/10) * (([0, 1, 2, 3, 4, 5, 6, 7, 8, 9] : List Nat).length : ℚ)⌋).toNat)) :=
  (split_spec [0, 1, 2, 3, 4, 5, 6, 7, 8, 9] ((9 : ℚ)/10)
    (by norm_num) (by norm_num)).1

end GPT
